import Mathlib

/- Shallow embedding of the reference-management and syntax-derivation engine
of the VAAPI H.264 / H.265 encoders (src/libavcodec/vaapi_encode_h264.c and
src/libavcodec/vaapi_encode_h265.c).

Pictures are modelled as records carrying the per-picture codec state that the
C code reads through priv_data (frame_num, pic_order_cnt).  Pointer identity
of pictures is modelled by record identity (a pid field keeps otherwise equal
pictures distinct).  The C arrays that the insertion loops mutate in place are
modelled as lists; a loop that scans an array from its tail is modelled as a
recursion over the reversed list.  av_assert0 aborts are modelled by Option:
none means the assertion fired.  C int / size_t values are modelled as
Int / Nat; the bitmask with (1 shl k) - 1 applied to the always-nonnegative
frame_num / pic_order_cnt counters is modelled as reduction mod 2 ^ k. -/

namespace VaapiEnc

/-- Picture types delivered by the external scheduler
(FF_HW_PICTURE_TYPE_IDR / I / P / B). -/
inductive PicType where
  | IDR
  | I
  | P
  | B
deriving DecidableEq, Repr

/-- The fields of a scheduled picture that frame-number derivation reads. -/
structure BasePic where
  ptype : PicType
  is_reference : Bool
deriving DecidableEq, Repr

/-- Per-picture codec state as read through priv_data: a picture identity
plus the derived frame_num and pic_order_cnt annotations. -/
structure RPic where
  pid : Nat
  frame_num : Int
  poc : Int
deriving DecidableEq, Repr

/-! ### frame_num derivation (vaapi_encode_h264_init_picture_params, lines 634-661) -/

/-- The frame_num written for one picture: 0 at an IDR picture, otherwise the
previous picture's frame_num plus the previous picture's reference flag. -/
def frameNumNext (t : PicType) (prevFn : Int) (prevIsRef : Bool) : Int :=
  if t = PicType.IDR then 0 else prevFn + (if prevIsRef then 1 else 0)

/-- frame_num values along a sequence of pictures, threading the previous
picture and its frame_num; none when a non-IDR picture has no predecessor
(the av_assert0(prev) on line 644). -/
def frameNumSeqAux (prev : Option (BasePic × Int)) : List BasePic → Option (List Int)
  | [] => some []
  | p :: ps =>
    if p.ptype = PicType.IDR then
      (frameNumSeqAux (some (p, 0)) ps).map (fun r => 0 :: r)
    else
      match prev with
      | none => none
      | some (q, fn) =>
        (frameNumSeqAux (some (p, fn + (if q.is_reference then 1 else 0))) ps).map
          (fun r => (fn + (if q.is_reference then 1 else 0)) :: r)

/-- frame_num values of a whole sequence, starting with no previous picture. -/
def frameNumSeq (l : List BasePic) : Option (List Int) :=
  frameNumSeqAux none l

/-- The on-wire slice-header frame_num (line 894): the stored counter masked
to 4 + log2_max_frame_num_minus4 bits.  For the nonnegative counters produced
by frameNumSeq the C bitmask equals reduction mod 2 ^ (4 + k). -/
def shFrameNum (fn : Int) (log2mfnMinus4 : Nat) : Int :=
  fn % (2 ^ (4 + log2mfnMinus4))

/-! ### Generic insertion-loop machinery

The three reference-list builders and the H.265 RPS sort all insert a new
element into an already sorted array by scanning the array from its tail,
shifting elements until a break condition holds, with an av_assert0 checked
on each scanned element.  scanIns models one such scan; its list argument is
the current array reversed (head = last array element).  stop y x is the
break condition (y stays in front of x in array order), bad y x the assertion
violation that aborts encoding. -/

def scanIns {α : Type} (stop bad : α → α → Bool) (x : α) : List α → Option (List α)
  | [] => some [x]
  | y :: ys =>
    if bad y x then none
    else if stop y x then some (x :: y :: ys)
    else (scanIns stop bad x ys).map (fun r => y :: r)

/-- The outer loop over candidate entries: pre models a per-entry av_assert0
checked before insertion, acc is the reversed array built so far. -/
def insLoop {α : Type} (stop bad : α → α → Bool) (pre : α → Bool) :
    List α → List α → Option (List α)
  | acc, [] => some acc
  | acc, x :: xs =>
    if pre x then
      match scanIns stop bad x acc with
      | some acc2 => insLoop stop bad pre acc2 xs
      | none => none
    else none

/-! ### H.264 default reference picture lists
(vaapi_encode_h264_default_ref_pic_list, lines 768-864) -/

/-- Break condition of the P-list insertion (line 791): the scanned entry
stays in front when its frame_num is larger. -/
def stopP (y x : RPic) : Bool :=
  decide (x.frame_num < y.frame_num)

/-- Assertion of the P-list insertion (line 790): scanned and inserted entry
must not share a frame_num. -/
def badP (y x : RPic) : Bool :=
  decide (y.frame_num = x.frame_num)

/-- Per-entry assertion of the outer loop (line 785): every DPB entry's
frame_num is below the current picture's. -/
def preFn (cur : RPic) (x : RPic) : Bool :=
  decide (x.frame_num < cur.frame_num)

/-- Break condition of the B-list-0 insertion (lines 801-808), p being the
current picture's pic_order_cnt. -/
def stopB0 (p : Int) (y x : RPic) : Bool :=
  if y.poc < p then decide (p < x.poc) || decide (x.poc < y.poc)
  else decide (y.poc < x.poc)

/-- Assertion of both B-list insertions (lines 800 and 815): a scanned
entry's pic_order_cnt must differ from the current picture's. -/
def badB (p : Int) (y : RPic) (_x : RPic) : Bool :=
  decide (y.poc = p)

/-- Break condition of the B-list-1 insertion (lines 816-823). -/
def stopB1 (p : Int) (y x : RPic) : Bool :=
  if p < y.poc then decide (x.poc < p) || decide (y.poc < x.poc)
  else decide (x.poc < y.poc)

/-- Default RefPicList0 of a P picture: the insertion-sort loop over the
previous picture's DPB, result in array order. -/
def defaultListP (cur : RPic) (dpb : List RPic) : Option (List RPic) :=
  (insLoop stopP badP (preFn cur) [] dpb).map List.reverse

/-- Default RefPicList0 of a B picture, in array order. -/
def defaultListB0 (cur : RPic) (dpb : List RPic) : Option (List RPic) :=
  (insLoop (stopB0 cur.poc) (badB cur.poc) (preFn cur) [] dpb).map List.reverse

/-- Default RefPicList1 of a B picture before the degenerate-list correction,
in array order. -/
def defaultListB1pre (cur : RPic) (dpb : List RPic) : Option (List RPic) :=
  (insLoop (stopB1 cur.poc) (badB cur.poc) (preFn cur) [] dpb).map List.reverse

/-- FFSWAP of the first two entries (line 838). -/
def swapFirstTwo {α : Type} : List α → List α
  | a :: b :: r => b :: a :: r
  | l => l

/-- Degenerate-list correction (lines 832-839): if both default lists agree
element for element, the first two entries of list 1 are swapped. -/
def fixListB1 (l0 l1 : List RPic) : List RPic :=
  if l0 = l1 then swapFirstTwo l1 else l1

/-- The complete default-list computation for a B picture: both insertion
loops (the C code interleaves them over one DPB scan; the two arrays are
disjoint state, so running the loops one after the other gives the same
arrays and fails exactly when the interleaved run fails), then the
degenerate-list correction on list 1. -/
def defaultRefPicListsB (cur : RPic) (dpb : List RPic) : Option (List RPic × List RPic) :=
  match defaultListB0 cur dpb, defaultListB1pre cur dpb with
  | some l0, some l1 => some (l0, fixListB1 l0 l1)
  | _, _ => none

/-! ### Specification-side orderings for the B-picture default lists.
These definitions follow the specification text (spec section 4.1) and exist
to be compared with defaultListB0 / defaultListB1pre. -/

/-- Sort by decreasing pic_order_cnt (specification wording). -/
def sortPocDesc (l : List RPic) : List RPic :=
  List.insertionSort (fun a b => b.poc ≤ a.poc) l

/-- Sort by increasing pic_order_cnt (specification wording). -/
def sortPocAsc (l : List RPic) : List RPic :=
  List.insertionSort (fun a b => a.poc ≤ b.poc) l

/-- Specification wording for B list 0: candidates with POC below the current
picture's POC by decreasing POC, then the remaining candidates by increasing
POC. -/
def specListB0 (p : Int) (dpb : List RPic) : List RPic :=
  sortPocDesc (dpb.filter (fun x => decide (x.poc < p))) ++
    sortPocAsc (dpb.filter (fun x => !(decide (x.poc < p))))

/-- Specification wording for B list 1: candidates with POC above the current
picture's POC by increasing POC, then the remaining candidates by decreasing
POC. -/
def specListB1 (p : Int) (dpb : List RPic) : List RPic :=
  sortPocAsc (dpb.filter (fun x => decide (p < x.poc))) ++
    sortPocDesc (dpb.filter (fun x => !(decide (p < x.poc))))

/-! ### Reference-list-modification signaling
(vaapi_encode_h264_init_slice_params, lines 946-1047) -/

/-- One ref_pic_list_modification command: modification_of_pic_nums_idc and
abs_diff_pic_num_minus1 (the latter is unused for the end marker idc 3). -/
structure RplmEntry where
  idc : Nat
  abs_diff_pic_num_minus1 : Int
deriving DecidableEq, Repr

/-- The need_rplm scan: the chosen references differ from the default list at
some index below the number of references. -/
def listsDiffer : List RPic → List RPic → Bool
  | [], _ => false
  | _ :: _, [] => true
  | x :: xs, y :: ys => decide (x ≠ y) || listsDiffer xs ys

/-- The modification command list built from the chosen references: each
command encodes the signed difference of the reference's frame_num from the
running predictor pic_num (initially the current picture's frame_num, then
the previous reference's frame_num), terminated by idc 3.  none models the
av_assert0 that each difference is nonzero. -/
def rplmCmds (picNum : Int) : List RPic → Option (List RplmEntry)
  | [] => some [⟨3, 0⟩]
  | r :: rest =>
    if r.frame_num = picNum then none
    else if r.frame_num < picNum then
      (rplmCmds r.frame_num rest).map (fun cs => ⟨0, picNum - r.frame_num - 1⟩ :: cs)
    else
      (rplmCmds r.frame_num rest).map (fun cs => ⟨1, r.frame_num - picNum - 1⟩ :: cs)

/-- ref_pic_list_modification emission for one list, shared by the P-picture
list 0 and the B-picture lists 0 and 1 (the three copies of this logic in
init_slice_params are identical up to the list index): the flag, and the
commands when the flag is set. -/
def sliceRplm (cur : RPic) (refs defl : List RPic) : Option (Bool × List RplmEntry) :=
  if listsDiffer refs defl then
    (rplmCmds cur.frame_num refs).map (fun cs => (true, cs))
  else some (false, [])

/-- Modelled from the spec: the decoder-side application of the modification
commands, which lives in this repository's H.264 decoder (h264_refs.c, not
under src/).  Each command rebuilds a target picture number from the running
predictor: idc 0 subtracts abs_diff_pic_num_minus1 + 1, idc 1 adds it, and
the rebuilt number becomes the next predictor; idc 3 ends the list. -/
def rplmTargets (picNum : Int) : List RplmEntry → List Int
  | [] => []
  | c :: cs =>
    if c.idc = 3 then []
    else if c.idc = 0 then
      (picNum - (c.abs_diff_pic_num_minus1 + 1)) ::
        rplmTargets (picNum - (c.abs_diff_pic_num_minus1 + 1)) cs
    else
      (picNum + (c.abs_diff_pic_num_minus1 + 1)) ::
        rplmTargets (picNum + (c.abs_diff_pic_num_minus1 + 1)) cs

/-- Modelled from the spec: resolving a rebuilt picture number against the
reference candidates (the default list) by frame_num. -/
def pickByFrameNum (cands : List RPic) (t : Int) : Option RPic :=
  cands.find? (fun x => decide (x.frame_num = t))

/-! ### Memory-management-control operations
(vaapi_encode_h264_init_slice_params, lines 909-942) -/

/-- One decoded-reference marking operation:
memory_management_control_operation and difference_of_pic_nums_minus1 (the
latter is unused for the end marker op 0). -/
structure MmcoOp where
  op : Nat
  difference_of_pic_nums_minus1 : Int
deriving DecidableEq, Repr

/-- The discard scan (lines 915-926): everything in the previous picture's
DPB that is not in the current picture's DPB, in previous-DPB order. -/
def discardList (prevDpb curDpb : List RPic) : List RPic :=
  prevDpb.filter (fun x => decide (x ∉ curDpb))

/-- The operation-1 commands for the discarded pictures; none models the
av_assert0 that each discarded frame_num is below the current one. -/
def mmcoOps (curFn : Int) : List RPic → Option (List MmcoOp)
  | [] => some []
  | old :: rest =>
    if old.frame_num < curFn then
      (mmcoOps curFn rest).map (fun ops => ⟨1, curFn - old.frame_num - 1⟩ :: ops)
    else none

/-- adaptive_ref_pic_marking_mode_flag and the mmco command list for a
reference non-IDR picture. -/
def sliceMmco (cur : RPic) (prevDpb curDpb : List RPic) : Option (Bool × List MmcoOp) :=
  if discardList prevDpb curDpb = [] then some (false, [])
  else
    (mmcoOps cur.frame_num (discardList prevDpb curDpb)).map
      (fun ops => (true, ops ++ [⟨0, 0⟩]))

/-! ### Access-unit serialization
(vaapi_encode_h264_write_access_unit and its callers, lines 113-294) -/

/-- Kinds of units queued in the pending access-unit fragment. -/
inductive NalKind where
  | aud
  | sps
  | pps
  | sliceHdr
  | seiPayload
deriving DecidableEq, Repr

/-- Errors surfaced by serialization. -/
inductive CErr where
  | enospc
  | eof
  | other
deriving DecidableEq, Repr

/-- Outcome of ff_cbs_write_fragment_data: serialized bytes and the number of
trailing alignment padding bits. -/
structure CbsOut where
  bytes : List Nat
  bit_padding : Nat
deriving DecidableEq, Repr

/-- The exact bit length of a serialized fragment (line 126). -/
def bitLen (o : CbsOut) : Nat :=
  8 * o.bytes.length - o.bit_padding

/-- vaapi_encode_h264_write_access_unit: serialize the fragment (the cbs
serializer is abstracted as an input), fail with ENOSPC when the caller's
bit capacity is below the required bit length, otherwise copy the bytes into
the caller's buffer and report the bit length.  Returns the result and the
caller's buffer after the call. -/
def writeAccessUnit (dataLen : Nat) (buf : List Nat) (ser : Except CErr CbsOut) :
    Except CErr Nat × List Nat :=
  match ser with
  | Except.error e => (Except.error e, buf)
  | Except.ok o =>
    if dataLen < bitLen o then (Except.error CErr.enospc, buf)
    else (Except.ok (bitLen o), o.bytes)

/-- vaapi_encode_h264_write_sequence_header: queue AUD (when due), SPS and
PPS, serialize, and reset the pending fragment on every exit path.  Returns
(result, caller buffer, pending unit list after the call). -/
def writeSequenceHeader (audNeeded : Bool) (au : List NalKind) (dataLen : Nat)
    (buf : List Nat) (ser : List NalKind → Except CErr CbsOut) :
    Except CErr Nat × List Nat × List NalKind :=
  ((writeAccessUnit dataLen buf
      (ser ((if audNeeded then au ++ [NalKind.aud] else au) ++ [NalKind.sps, NalKind.pps]))).1,
   (writeAccessUnit dataLen buf
      (ser ((if audNeeded then au ++ [NalKind.aud] else au) ++ [NalKind.sps, NalKind.pps]))).2,
   [])

/-- vaapi_encode_h264_write_slice_header: queue AUD (when due) and the slice
header, serialize, and reset the pending fragment on every exit path. -/
def writeSliceHeader (audNeeded : Bool) (au : List NalKind) (dataLen : Nat)
    (buf : List Nat) (ser : List NalKind → Except CErr CbsOut) :
    Except CErr Nat × List Nat × List NalKind :=
  ((writeAccessUnit dataLen buf
      (ser ((if audNeeded then au ++ [NalKind.aud] else au) ++ [NalKind.sliceHdr]))).1,
   (writeAccessUnit dataLen buf
      (ser ((if audNeeded then au ++ [NalKind.aud] else au) ++ [NalKind.sliceHdr]))).2,
   [])

/-- vaapi_encode_h264_write_extra_header: when SEI messages are due, queue
AUD (when due) and the SEI payloads, serialize and reset the fragment on
every exit path of that branch; when only the legacy zero-length workaround
is due, report success with no bytes; otherwise report end of stream.  The
latter two paths queue nothing and leave the pending fragment untouched. -/
def writeExtraHeader (seiNeeded cbrWorkaround audNeeded : Bool) (au : List NalKind)
    (seiUnits : List NalKind) (dataLen : Nat) (buf : List Nat)
    (ser : List NalKind → Except CErr CbsOut) :
    Except CErr Nat × List Nat × List NalKind :=
  if seiNeeded then
    ((writeAccessUnit dataLen buf
        (ser ((if audNeeded then au ++ [NalKind.aud] else au) ++ seiUnits))).1,
     (writeAccessUnit dataLen buf
        (ser ((if audNeeded then au ++ [NalKind.aud] else au) ++ seiUnits))).2,
     [])
  else if cbrWorkaround then (Except.ok 0, buf, au)
  else (Except.error CErr.eof, buf, au)

/-! ### SEI scheduling
(vaapi_encode_h264_init_picture_params lines 682-708,
vaapi_encode_h264_write_extra_header lines 228-262,
vaapi_encode_h264_configure lines 1125-1128) -/

/-- The SEI option bitmask, one field per SEI_* flag bit. -/
structure SeiOpts where
  timing : Bool
  identifier : Bool
  recovery_point : Bool
  a53_cc : Bool
deriving DecidableEq, Repr

/-- Configuration-time adjustment: timing SEI requires a rate-control mode
respecting HRD parameters. -/
def configureSei (rcModeHrd : Bool) (sei : SeiOpts) : SeiOpts :=
  if rcModeHrd then sei else { sei with timing := false }

/-- Per-picture sei_needed mask computed by init_picture_params: identifier
only on the very first picture in encode order, timing on every picture,
recovery point on (non-IDR) intra pictures, captions when side data is
attached. -/
def scheduleSei (sei : SeiOpts) (encodeOrder : Nat) (t : PicType) (a53Present : Bool) :
    SeiOpts :=
  { timing := sei.timing,
    identifier := sei.identifier && decide (encodeOrder = 0),
    recovery_point := sei.recovery_point && decide (t = PicType.I),
    a53_cc := sei.a53_cc && a53Present }

/-- SEI message types queued by write_extra_header. -/
inductive SeiMsg where
  | userDataUnregistered
  | bufferingPeriod
  | picTiming
  | recoveryPoint
  | userDataRegistered
deriving DecidableEq, Repr

/-- The SEI messages queued by write_extra_header for a picture, in queue
order: identifier, then (for timing) buffering period on IDR pictures
followed by picture timing, then recovery point, then captions. -/
def extraHeaderMsgs (needed : SeiOpts) (t : PicType) : List SeiMsg :=
  (if needed.identifier then [SeiMsg.userDataUnregistered] else []) ++
    (if needed.timing then
      (if t = PicType.IDR then [SeiMsg.bufferingPeriod] else []) ++ [SeiMsg.picTiming]
    else []) ++
    (if needed.recovery_point then [SeiMsg.recoveryPoint] else []) ++
    (if needed.a53_cc then [SeiMsg.userDataRegistered] else [])

/-! ### H.265 short-term reference picture set
(vaapi_encode_h265_init_slice_params, lines 1009-1093) -/

/-- The RPS candidate pool (lines 1021-1053): the pic_order_cnt of every
used reference from both lists, flagged used, followed by every DPB entry
that is neither the current picture itself nor one of the used references,
flagged unused. -/
def rpsPool (cur : RPic) (refs0 refs1 dpb : List RPic) : List (Int × Bool) :=
  (refs0 ++ refs1).map (fun r => (r.poc, true)) ++
    (dpb.filter (fun d => decide (d ≠ cur) && decide (d ∉ refs0) && decide (d ∉ refs1))).map
      (fun d => (d.poc, false))

/-- Break condition of the RPS insertion sort (line 1057): the moving entry
stops once it exceeds its predecessor. -/
def stopRps (y x : Int × Bool) : Bool :=
  decide (y.1 < x.1)

/-- Assertion of the RPS insertion sort (line 1059): no duplicate
pic_order_cnt. -/
def badRps (y x : Int × Bool) : Bool :=
  decide (x.1 = y.1)

/-- The RPS insertion sort over the pool (lines 1055-1063), in array order;
none when the duplicate-POC assertion fires. -/
def rpsSort (pool : List (Int × Bool)) : Option (List (Int × Bool)) :=
  (insLoop stopRps badRps (fun _ => true) [] pool).map List.reverse

/-- The partition scan (lines 1073-1077): the index of the first entry whose
POC exceeds the current picture's POC; none when a scanned entry's POC
equals the current picture's POC (the av_assert0 on line 1074). -/
def findPartition (cur : Int) : List (Int × Bool) → Option Nat
  | [] => some 0
  | e :: rest =>
    if e.1 = cur then none
    else if cur < e.1 then some 0
    else (findPartition cur rest).map (fun i => i + 1)

/-- delta_poc_s0_minus1 encoding (lines 1080-1085): the input list is the
negative partition walked from the entry nearest the current picture
backwards, and each delta is taken against the previous entry's POC (the
running poc variable), starting from the current picture's POC. -/
def encodeS0 (prev : Int) : List (Int × Bool) → List (Int × Bool)
  | [] => []
  | e :: rest => (prev - e.1 - 1, e.2) :: encodeS0 e.1 rest

/-- delta_poc_s1_minus1 encoding (lines 1087-1093): the positive partition in
array order, each delta against the previous entry's POC, starting from the
current picture's POC. -/
def encodeS1 (prev : Int) : List (Int × Bool) → List (Int × Bool)
  | [] => []
  | e :: rest => (e.1 - prev - 1, e.2) :: encodeS1 e.1 rest

/-- Inverse of encodeS0: rebuild the POCs from the delta chain. -/
def decodeS0 (prev : Int) : List (Int × Bool) → List (Int × Bool)
  | [] => []
  | e :: rest => (prev - e.1 - 1, e.2) :: decodeS0 (prev - e.1 - 1) rest

/-- Inverse of encodeS1: rebuild the POCs from the delta chain. -/
def decodeS1 (prev : Int) : List (Int × Bool) → List (Int × Bool)
  | [] => []
  | e :: rest => (prev + e.1 + 1, e.2) :: decodeS1 (prev + e.1 + 1) rest

/-- The short_term_ref_pic_set fields filled by init_slice_params. -/
structure StRefPicSet where
  num_negative_pics : Nat
  num_positive_pics : Nat
  s0 : List (Int × Bool)
  s1 : List (Int × Bool)
deriving DecidableEq, Repr

/-- The complete RPS construction for a non-IDR picture: pool, insertion
sort, partition at the first POC above the current picture's, and the two
delta-chain encodings. -/
def buildRps (cur : RPic) (refs0 refs1 dpb : List RPic) : Option StRefPicSet :=
  match rpsSort (rpsPool cur refs0 refs1 dpb) with
  | none => none
  | some sorted =>
    match findPartition cur.poc sorted with
    | none => none
    | some i =>
      some { num_negative_pics := i,
             num_positive_pics := sorted.length - i,
             s0 := encodeS0 cur.poc (sorted.take i).reverse,
             s1 := encodeS1 cur.poc (sorted.drop i) }

/-- Written from the claim text for comparison with encodeS0: every
negative-partition entry encoded against the current picture's POC
throughout, rather than against the previous entry's POC. -/
def specEncodeS0 (curPoc : Int) (negRev : List (Int × Bool)) : List (Int × Bool) :=
  negRev.map (fun e => (curPoc - e.1 - 1, e.2))

end VaapiEnc

namespace VaapiEnc

/-! ### Generic lemmas about the insertion machinery -/

theorem pairwise_of_all {α : Type} {R : α → α → Prop} (h : ∀ a b, R a b) :
    ∀ l : List α, l.Pairwise R
  | [] => List.Pairwise.nil
  | x :: xs => List.Pairwise.cons (fun b _ => h x b) (pairwise_of_all h xs)

theorem pairwise_strengthen {α : Type} {R S : α → α → Prop} {P : α → Prop} :
    ∀ {l : List α}, l.Pairwise R → (∀ x ∈ l, P x) →
      (∀ a b, P a → P b → R a b → S a b) → l.Pairwise S
  | [], _, _, _ => List.Pairwise.nil
  | x :: xs, hR, hP, hI => by
    rcases List.pairwise_cons.mp hR with ⟨hx, hxs⟩
    refine List.Pairwise.cons (fun b hb => ?_) (pairwise_strengthen hxs ?_ hI)
    · exact hI x b (hP x (by simp)) (hP b (by simp [hb])) (hx b hb)
    · exact fun y hy => hP y (by simp [hy])

theorem scanIns_perm {α : Type} {stop bad : α → α → Bool} {x : α} :
    ∀ {m m2 : List α}, scanIns stop bad x m = some m2 → List.Perm m2 (x :: m) := by
  intro m
  induction m with
  | nil =>
    intro m2 h
    simp only [scanIns, Option.some_inj] at h
    subst h; exact List.Perm.refl _
  | cons y ys ih =>
    intro m2 h
    cases hb : bad y x with
    | true => simp [scanIns, hb] at h
    | false =>
      cases hs : stop y x with
      | true =>
        simp only [scanIns, hb, hs] at h
        simp at h
        subst h; exact List.Perm.refl _
      | false =>
        simp only [scanIns, hb, hs] at h
        simp only [Bool.false_eq_true, if_false, Option.map_eq_some'] at h
        rcases h with ⟨t, ht, rfl⟩
        exact ((ih ht).cons y).trans (List.Perm.swap x y ys)

theorem scanIns_isSome {α : Type} {stop bad : α → α → Bool} {x : α} :
    ∀ {m : List α}, (∀ y ∈ m, bad y x = false) →
      ∃ m2, scanIns stop bad x m = some m2 := by
  intro m
  induction m with
  | nil => intro _; exact ⟨[x], rfl⟩
  | cons y ys ih =>
    intro h
    have hb : bad y x = false := h y (by simp)
    cases hs : stop y x with
    | true => exact ⟨x :: y :: ys, by simp [scanIns, hb, hs]⟩
    | false =>
      rcases ih (fun z hz => h z (by simp [hz])) with ⟨t, ht⟩
      exact ⟨y :: t, by simp [scanIns, hb, hs, ht]⟩

theorem scanIns_pairwise {α : Type} {stop bad : α → α → Bool} {x : α} :
    ∀ {m m2 : List α},
      m.Pairwise (fun a b => stop b a = true) →
      (∀ y ∈ m, bad y x = false → (stop y x = true ∨ stop x y = true)) →
      (∀ z y w, stop z y = true → stop y w = true → stop z w = true) →
      scanIns stop bad x m = some m2 →
      m2.Pairwise (fun a b => stop b a = true) := by
  intro m
  induction m with
  | nil =>
    intro m2 _ _ _ h
    simp only [scanIns, Option.some_inj] at h
    subst h; simp
  | cons y ys ih =>
    intro m2 hm htot htr h
    rcases List.pairwise_cons.mp hm with ⟨hy, hys⟩
    cases hb : bad y x with
    | true => simp [scanIns, hb] at h
    | false =>
      cases hs : stop y x with
      | true =>
        simp only [scanIns, hb, hs] at h
        simp at h
        subst h
        refine List.Pairwise.cons (fun b hb2 => ?_) hm
        rcases List.mem_cons.mp hb2 with hb2 | hb2
        · subst hb2; exact hs
        · exact htr b y x (hy b hb2) hs
      | false =>
        simp only [scanIns, hb, hs] at h
        simp only [Bool.false_eq_true, if_false, Option.map_eq_some'] at h
        rcases h with ⟨t, ht, rfl⟩
        have htp : t.Pairwise (fun a b => stop b a = true) :=
          ih hys (fun z hz hbz => htot z (by simp [hz]) hbz) htr ht
        refine List.Pairwise.cons (fun b hb2 => ?_) htp
        have hmem : b ∈ x :: ys := (scanIns_perm ht).subset hb2
        rcases List.mem_cons.mp hmem with hb3 | hb3
        · subst hb3
          rcases htot y (by simp) hb with h1 | h1
          · exact absurd h1 (by simp [hs])
          · exact h1
        · exact hy b hb3

theorem insLoop_spec {α : Type} {stop bad : α → α → Bool} {pre : α → Bool} :
    ∀ {l acc res : List α},
      acc.Pairwise (fun a b => stop b a = true) →
      (∀ y ∈ acc, ∀ x ∈ l, bad y x = false → (stop y x = true ∨ stop x y = true)) →
      l.Pairwise (fun a b => bad a b = false → (stop a b = true ∨ stop b a = true)) →
      (∀ z y w, stop z y = true → stop y w = true → stop z w = true) →
      insLoop stop bad pre acc l = some res →
      res.Pairwise (fun a b => stop b a = true) ∧ List.Perm res (l ++ acc) := by
  intro l
  induction l with
  | nil =>
    intro acc res hacc _ _ _ h
    simp only [insLoop, Option.some_inj] at h
    subst h; exact ⟨hacc, by simp⟩
  | cons x xs ih =>
    intro acc res hacc hcross hl htr h
    rcases List.pairwise_cons.mp hl with ⟨hx, hxs⟩
    cases hp : pre x with
    | false => simp [insLoop, hp] at h
    | true =>
      simp only [insLoop, hp, if_true] at h
      rcases h2 : scanIns stop bad x acc with _ | acc2
      · rw [h2] at h; simp at h
      · rw [h2] at h
        have hperm2 : List.Perm acc2 (x :: acc) := scanIns_perm h2
        have hpair2 : acc2.Pairwise (fun a b => stop b a = true) :=
          scanIns_pairwise hacc
            (fun y hy hby => hcross y hy x (by simp) hby) htr h2
        have hcross2 : ∀ y ∈ acc2, ∀ z ∈ xs,
            bad y z = false → (stop y z = true ∨ stop z y = true) := by
          intro y hy z hz hbz
          rcases List.mem_cons.mp (hperm2.subset hy) with hy2 | hy2
          · subst hy2; exact hx z hz hbz
          · exact hcross y hy2 z (by simp [hz]) hbz
        rcases ih hpair2 hcross2 hxs htr h with ⟨hres, hpr⟩
        exact ⟨hres, hpr.trans ((List.Perm.append_left xs hperm2).trans List.perm_middle)⟩

theorem insLoop_isSome {α : Type} {stop bad : α → α → Bool} {pre : α → Bool} :
    ∀ {l acc : List α},
      (∀ x ∈ l, pre x = true) →
      (∀ y x, (y ∈ acc ∨ y ∈ l) → x ∈ l → bad y x = false) →
      ∃ res, insLoop stop bad pre acc l = some res := by
  intro l
  induction l with
  | nil => intro acc _ _; exact ⟨acc, rfl⟩
  | cons x xs ih =>
    intro acc hpre hbad
    have hp : pre x = true := hpre x (by simp)
    rcases @scanIns_isSome _ stop bad x acc
        (fun y hy => hbad y x (Or.inl hy) (by simp)) with ⟨acc2, h2⟩
    have hbad2 : ∀ y z, (y ∈ acc2 ∨ y ∈ xs) → z ∈ xs → bad y z = false := by
      intro y z hy hz
      rcases hy with hy | hy
      · rcases List.mem_cons.mp ((scanIns_perm h2).subset hy) with hy2 | hy2
        · subst hy2; exact hbad y z (Or.inr (by simp)) (by simp [hz])
        · exact hbad y z (Or.inl hy2) (by simp [hz])
      · exact hbad y z (Or.inr (by simp [hy])) (by simp [hz])
    rcases ih (fun z hz => hpre z (by simp [hz])) hbad2 with ⟨res, hres⟩
    exact ⟨res, by simp [insLoop, hp, h2, hres]⟩

end VaapiEnc

namespace VaapiEnc

/-! ### Properties of the concrete break conditions -/

theorem stopP_trans : ∀ z y w : RPic,
    stopP z y = true → stopP y w = true → stopP z w = true := by
  intro z y w h1 h2
  simp only [stopP, decide_eq_true_eq] at h1 h2 ⊢
  omega

theorem stopP_tot : ∀ y x : RPic,
    badP y x = false → (stopP y x = true ∨ stopP x y = true) := by
  intro y x h
  simp only [badP, decide_eq_false_iff_not] at h
  simp only [stopP, decide_eq_true_eq]
  omega

theorem stopRps_trans : ∀ z y w : Int × Bool,
    stopRps z y = true → stopRps y w = true → stopRps z w = true := by
  intro z y w h1 h2
  simp only [stopRps, decide_eq_true_eq] at h1 h2 ⊢
  omega

theorem stopRps_tot : ∀ y x : Int × Bool,
    badRps y x = false → (stopRps y x = true ∨ stopRps x y = true) := by
  intro y x h
  simp only [badRps, decide_eq_false_iff_not] at h
  simp only [stopRps, decide_eq_true_eq]
  omega

theorem stopB0_iff (p : Int) (y x : RPic) :
    stopB0 p y x = true ↔
      ((y.poc < p ∧ (p < x.poc ∨ x.poc < y.poc)) ∨ (¬(y.poc < p) ∧ y.poc < x.poc)) := by
  simp only [stopB0]
  split_ifs with h <;> simp [h]

theorem stopB0_trans (p : Int) : ∀ z y w : RPic,
    stopB0 p z y = true → stopB0 p y w = true → stopB0 p z w = true := by
  intro z y w h1 h2
  rw [stopB0_iff] at h1 h2 ⊢
  omega

theorem stopB0_tot (p : Int) : ∀ y x : RPic, y.poc ≠ x.poc → y.poc ≠ p → x.poc ≠ p →
    (stopB0 p y x = true ∨ stopB0 p x y = true) := by
  intro y x h1 h2 h3
  rw [stopB0_iff, stopB0_iff]
  omega

theorem stopB0_asymm (p : Int) : ∀ a b : RPic,
    stopB0 p a b = true → stopB0 p b a = true → a = b := by
  intro a b h1 h2
  exfalso
  rw [stopB0_iff] at h1 h2
  omega

theorem stopB1_iff (p : Int) (y x : RPic) :
    stopB1 p y x = true ↔
      ((p < y.poc ∧ (x.poc < p ∨ y.poc < x.poc)) ∨ (¬(p < y.poc) ∧ x.poc < y.poc)) := by
  simp only [stopB1]
  split_ifs with h <;> simp [h]

theorem stopB1_trans (p : Int) : ∀ z y w : RPic,
    stopB1 p z y = true → stopB1 p y w = true → stopB1 p z w = true := by
  intro z y w h1 h2
  rw [stopB1_iff] at h1 h2 ⊢
  omega

theorem stopB1_tot (p : Int) : ∀ y x : RPic, y.poc ≠ x.poc → y.poc ≠ p → x.poc ≠ p →
    (stopB1 p y x = true ∨ stopB1 p x y = true) := by
  intro y x h1 h2 h3
  rw [stopB1_iff, stopB1_iff]
  omega

theorem stopB1_asymm (p : Int) : ∀ a b : RPic,
    stopB1 p a b = true → stopB1 p b a = true → a = b := by
  intro a b h1 h2
  exfalso
  rw [stopB1_iff] at h1 h2
  omega

/-! ### Characterization of the default-list builders -/

theorem defaultListP_char {cur : RPic} {dpb l : List RPic}
    (h : defaultListP cur dpb = some l) :
    l.Pairwise (fun a b => b.frame_num < a.frame_num) ∧ List.Perm l dpb := by
  simp only [defaultListP, Option.map_eq_some'] at h
  rcases h with ⟨res, hres, rfl⟩
  have hspec := insLoop_spec (List.Pairwise.nil)
    (by intro y hy; simp at hy)
    (pairwise_of_all (fun a b hb => stopP_tot a b hb) dpb)
    stopP_trans hres
  rcases hspec with ⟨hpair, hperm⟩
  constructor
  · have : res.reverse.Pairwise (fun a b => stopP a b = true) := by
      rw [List.pairwise_reverse]
      exact hpair
    exact this.imp (by intro a b hab; simpa [stopP, decide_eq_true_eq] using hab)
  · exact (res.reverse_perm).trans (by simpa using hperm)

theorem defaultListB0_char {cur : RPic} {dpb l : List RPic}
    (hdist : dpb.Pairwise (fun a b => a.poc ≠ b.poc))
    (hp : ∀ x ∈ dpb, x.poc ≠ cur.poc)
    (h : defaultListB0 cur dpb = some l) :
    l.Pairwise (fun a b => stopB0 cur.poc a b = true) ∧ List.Perm l dpb := by
  simp only [defaultListB0, Option.map_eq_some'] at h
  rcases h with ⟨res, hres, rfl⟩
  have hl : dpb.Pairwise (fun a b =>
      badB cur.poc a b = false → (stopB0 cur.poc a b = true ∨ stopB0 cur.poc b a = true)) := by
    refine pairwise_strengthen hdist hp ?_
    intro a b ha hb hab _
    exact stopB0_tot cur.poc a b hab ha hb
  have hspec := insLoop_spec (List.Pairwise.nil)
    (by intro y hy; simp at hy) hl (stopB0_trans cur.poc) hres
  rcases hspec with ⟨hpair, hperm⟩
  constructor
  · rw [List.pairwise_reverse]; exact hpair
  · exact (res.reverse_perm).trans (by simpa using hperm)

theorem defaultListB1pre_char {cur : RPic} {dpb l : List RPic}
    (hdist : dpb.Pairwise (fun a b => a.poc ≠ b.poc))
    (hp : ∀ x ∈ dpb, x.poc ≠ cur.poc)
    (h : defaultListB1pre cur dpb = some l) :
    l.Pairwise (fun a b => stopB1 cur.poc a b = true) ∧ List.Perm l dpb := by
  simp only [defaultListB1pre, Option.map_eq_some'] at h
  rcases h with ⟨res, hres, rfl⟩
  have hl : dpb.Pairwise (fun a b =>
      badB cur.poc a b = false → (stopB1 cur.poc a b = true ∨ stopB1 cur.poc b a = true)) := by
    refine pairwise_strengthen hdist hp ?_
    intro a b ha hb hab _
    exact stopB1_tot cur.poc a b hab ha hb
  have hspec := insLoop_spec (List.Pairwise.nil)
    (by intro y hy; simp at hy) hl (stopB1_trans cur.poc) hres
  rcases hspec with ⟨hpair, hperm⟩
  constructor
  · rw [List.pairwise_reverse]; exact hpair
  · exact (res.reverse_perm).trans (by simpa using hperm)

theorem defaultListB0_isSome {cur : RPic} {dpb : List RPic}
    (hp : ∀ x ∈ dpb, x.poc ≠ cur.poc)
    (hfn : ∀ x ∈ dpb, x.frame_num < cur.frame_num) :
    ∃ l, defaultListB0 cur dpb = some l := by
  rcases @insLoop_isSome _ (stopB0 cur.poc) (badB cur.poc) (preFn cur) dpb []
      (fun x hx => by simpa [preFn, decide_eq_true_eq] using hfn x hx)
      (by
        intro y x hy _
        rcases hy with hy | hy
        · simp at hy
        · simpa [badB, decide_eq_false_iff_not] using hp y hy) with ⟨res, hres⟩
  exact ⟨res.reverse, by simp [defaultListB0, hres]⟩

theorem defaultListB1pre_isSome {cur : RPic} {dpb : List RPic}
    (hp : ∀ x ∈ dpb, x.poc ≠ cur.poc)
    (hfn : ∀ x ∈ dpb, x.frame_num < cur.frame_num) :
    ∃ l, defaultListB1pre cur dpb = some l := by
  rcases @insLoop_isSome _ (stopB1 cur.poc) (badB cur.poc) (preFn cur) dpb []
      (fun x hx => by simpa [preFn, decide_eq_true_eq] using hfn x hx)
      (by
        intro y x hy _
        rcases hy with hy | hy
        · simp at hy
        · simpa [badB, decide_eq_false_iff_not] using hp y hy) with ⟨res, hres⟩
  exact ⟨res.reverse, by simp [defaultListB1pre, hres]⟩

end VaapiEnc

namespace VaapiEnc

theorem pairwise_and {α : Type} {R S : α → α → Prop} :
    ∀ {l : List α}, l.Pairwise R → l.Pairwise S →
      l.Pairwise (fun a b => R a b ∧ S a b)
  | [], _, _ => List.Pairwise.nil
  | _ :: _, h1, h2 => by
    rcases List.pairwise_cons.mp h1 with ⟨ha, h1t⟩
    rcases List.pairwise_cons.mp h2 with ⟨hb, h2t⟩
    exact List.Pairwise.cons (fun b hbm => ⟨ha b hbm, hb b hbm⟩) (pairwise_and h1t h2t)

theorem sortPocDesc_perm (l : List RPic) : List.Perm (sortPocDesc l) l :=
  List.perm_insertionSort _ l

theorem sortPocAsc_perm (l : List RPic) : List.Perm (sortPocAsc l) l :=
  List.perm_insertionSort _ l

theorem sortPocDesc_sorted (l : List RPic) :
    (sortPocDesc l).Pairwise (fun a b => b.poc ≤ a.poc) := by
  haveI : IsTotal RPic (fun a b => b.poc ≤ a.poc) := ⟨fun a b => le_total b.poc a.poc⟩
  haveI : IsTrans RPic (fun a b => b.poc ≤ a.poc) := ⟨fun _ _ _ h1 h2 => le_trans h2 h1⟩
  exact List.sorted_insertionSort _ l

theorem sortPocAsc_sorted (l : List RPic) :
    (sortPocAsc l).Pairwise (fun a b => a.poc ≤ b.poc) := by
  haveI : IsTotal RPic (fun a b => a.poc ≤ b.poc) := ⟨fun a b => le_total a.poc b.poc⟩
  haveI : IsTrans RPic (fun a b => a.poc ≤ b.poc) := ⟨fun _ _ _ h1 h2 => le_trans h1 h2⟩
  exact List.sorted_insertionSort _ l

theorem pairwise_ne_of_perm {l m : List RPic}
    (hperm : List.Perm l m) (h : m.Pairwise (fun a b => a.poc ≠ b.poc)) :
    l.Pairwise (fun a b => a.poc ≠ b.poc) :=
  (List.Perm.pairwise_iff (fun {_ _} hab => Ne.symm hab) hperm).mpr h

theorem specListB0_perm (p : Int) (dpb : List RPic) :
    List.Perm (specListB0 p dpb) dpb := by
  refine List.Perm.trans ?_ (List.filter_append_perm (fun x => decide (x.poc < p)) dpb)
  exact List.Perm.append (sortPocDesc_perm _) (sortPocAsc_perm _)

theorem specListB1_perm (p : Int) (dpb : List RPic) :
    List.Perm (specListB1 p dpb) dpb := by
  refine List.Perm.trans ?_ (List.filter_append_perm (fun x => decide (p < x.poc)) dpb)
  exact List.Perm.append (sortPocAsc_perm _) (sortPocDesc_perm _)

theorem specListB0_sorted (p : Int) (dpb : List RPic)
    (hdist : dpb.Pairwise (fun a b => a.poc ≠ b.poc))
    (hp : ∀ x ∈ dpb, x.poc ≠ p) :
    (specListB0 p dpb).Pairwise (fun a b => stopB0 p a b = true) := by
  have hpast : ∀ x ∈ sortPocDesc (dpb.filter (fun x => decide (x.poc < p))),
      x.poc < p := by
    intro x hx
    have := (sortPocDesc_perm _).subset hx
    rcases List.mem_filter.mp this with ⟨_, hxp⟩
    exact of_decide_eq_true hxp
  have hfut : ∀ x ∈ sortPocAsc (dpb.filter (fun x => !(decide (x.poc < p)))),
      ¬(x.poc < p) ∧ x.poc ≠ p := by
    intro x hx
    have := (sortPocAsc_perm _).subset hx
    rcases List.mem_filter.mp this with ⟨hxd, hxp⟩
    exact ⟨by simpa using hxp, hp x hxd⟩
  refine List.pairwise_append.mpr ⟨?_, ?_, ?_⟩
  · refine @pairwise_strengthen _ _ _ (fun x => x.poc < p) _
      (pairwise_and (sortPocDesc_sorted _)
        (pairwise_ne_of_perm (sortPocDesc_perm _)
          (hdist.sublist (List.filter_sublist _)))) hpast ?_
    intro a b ha hb hab
    rw [stopB0_iff]
    rcases hab with ⟨hle, hne⟩
    left
    constructor
    · exact ha
    · right
      omega
  · refine @pairwise_strengthen _ _ _ (fun x => ¬(x.poc < p) ∧ x.poc ≠ p) _
      (pairwise_and (sortPocAsc_sorted _)
        (pairwise_ne_of_perm (sortPocAsc_perm _)
          (hdist.sublist (List.filter_sublist _)))) hfut ?_
    intro a b ha _ hab
    rw [stopB0_iff]
    rcases hab with ⟨hle, hne⟩
    right
    exact ⟨ha.1, by omega⟩
  · intro a ha b hb
    rw [stopB0_iff]
    have h1 := hpast a ha
    have h2 := hfut b hb
    left
    exact ⟨h1, Or.inl (by omega)⟩

theorem specListB1_sorted (p : Int) (dpb : List RPic)
    (hdist : dpb.Pairwise (fun a b => a.poc ≠ b.poc))
    (hp : ∀ x ∈ dpb, x.poc ≠ p) :
    (specListB1 p dpb).Pairwise (fun a b => stopB1 p a b = true) := by
  have hfut : ∀ x ∈ sortPocAsc (dpb.filter (fun x => decide (p < x.poc))),
      p < x.poc := by
    intro x hx
    have := (sortPocAsc_perm _).subset hx
    rcases List.mem_filter.mp this with ⟨_, hxp⟩
    exact of_decide_eq_true hxp
  have hpast : ∀ x ∈ sortPocDesc (dpb.filter (fun x => !(decide (p < x.poc)))),
      ¬(p < x.poc) ∧ x.poc ≠ p := by
    intro x hx
    have := (sortPocDesc_perm _).subset hx
    rcases List.mem_filter.mp this with ⟨hxd, hxp⟩
    exact ⟨by simpa using hxp, hp x hxd⟩
  refine List.pairwise_append.mpr ⟨?_, ?_, ?_⟩
  · refine @pairwise_strengthen _ _ _ (fun x => p < x.poc) _
      (pairwise_and (sortPocAsc_sorted _)
        (pairwise_ne_of_perm (sortPocAsc_perm _)
          (hdist.sublist (List.filter_sublist _)))) hfut ?_
    intro a b ha _ hab
    rw [stopB1_iff]
    rcases hab with ⟨hle, hne⟩
    left
    exact ⟨ha, Or.inr (by omega)⟩
  · refine @pairwise_strengthen _ _ _ (fun x => ¬(p < x.poc) ∧ x.poc ≠ p) _
      (pairwise_and (sortPocDesc_sorted _)
        (pairwise_ne_of_perm (sortPocDesc_perm _)
          (hdist.sublist (List.filter_sublist _)))) hpast ?_
    intro a b ha _ hab
    rw [stopB1_iff]
    rcases hab with ⟨hle, hne⟩
    right
    exact ⟨ha.1, by omega⟩
  · intro a ha b hb
    rw [stopB1_iff]
    have h1 := hfut a ha
    have h2 := hpast b hb
    left
    exact ⟨h1, Or.inl (by omega)⟩

theorem defaultListB0_eq_spec {cur : RPic} {dpb : List RPic}
    (hdist : dpb.Pairwise (fun a b => a.poc ≠ b.poc))
    (hp : ∀ x ∈ dpb, x.poc ≠ cur.poc)
    (hfn : ∀ x ∈ dpb, x.frame_num < cur.frame_num) :
    defaultListB0 cur dpb = some (specListB0 cur.poc dpb) := by
  rcases defaultListB0_isSome hp hfn with ⟨l, hl⟩
  rcases defaultListB0_char hdist hp hl with ⟨hpair, hperm⟩
  haveI : IsAntisymm RPic (fun a b => stopB0 cur.poc a b = true) := ⟨stopB0_asymm cur.poc⟩
  have heq : l = specListB0 cur.poc dpb :=
    List.eq_of_perm_of_sorted (hperm.trans (specListB0_perm cur.poc dpb).symm)
      hpair (specListB0_sorted cur.poc dpb hdist hp)
  rw [hl, heq]

theorem defaultListB1pre_eq_spec {cur : RPic} {dpb : List RPic}
    (hdist : dpb.Pairwise (fun a b => a.poc ≠ b.poc))
    (hp : ∀ x ∈ dpb, x.poc ≠ cur.poc)
    (hfn : ∀ x ∈ dpb, x.frame_num < cur.frame_num) :
    defaultListB1pre cur dpb = some (specListB1 cur.poc dpb) := by
  rcases defaultListB1pre_isSome hp hfn with ⟨l, hl⟩
  rcases defaultListB1pre_char hdist hp hl with ⟨hpair, hperm⟩
  haveI : IsAntisymm RPic (fun a b => stopB1 cur.poc a b = true) := ⟨stopB1_asymm cur.poc⟩
  have heq : l = specListB1 cur.poc dpb :=
    List.eq_of_perm_of_sorted (hperm.trans (specListB1_perm cur.poc dpb).symm)
      hpair (specListB1_sorted cur.poc dpb hdist hp)
  rw [hl, heq]

end VaapiEnc

namespace VaapiEnc

/-! ### Lemmas about frame_num sequences -/

theorem fnsAux_head {p : BasePic} {f : Int} {ps : List BasePic} {rest : List Int}
    (h : frameNumSeqAux (some (p, f)) ps = some rest) :
    ∀ q, ps.head? = some q → rest.head? = some (frameNumNext q.ptype f p.is_reference) := by
  intro q hq
  cases ps with
  | nil => simp at hq
  | cons q0 qs =>
    have hq0 : q0 = q := by simpa using hq
    subst hq0
    simp only [frameNumSeqAux] at h
    by_cases hidr : q0.ptype = PicType.IDR
    · rw [if_pos hidr] at h
      rcases Option.map_eq_some'.mp h with ⟨t, _, rfl⟩
      simp [frameNumNext, hidr]
    · rw [if_neg hidr] at h
      rcases Option.map_eq_some'.mp h with ⟨t, _, rfl⟩
      simp [frameNumNext, hidr]

theorem fnsAux_step {p0 : BasePic} {ps : List BasePic} {prev : Option (BasePic × Int)}
    {fns : List Int} (h : frameNumSeqAux prev (p0 :: ps) = some fns) :
    ∃ f rest, fns = f :: rest ∧ frameNumSeqAux (some (p0, f)) ps = some rest := by
  simp only [frameNumSeqAux] at h
  by_cases hidr : p0.ptype = PicType.IDR
  · rw [if_pos hidr] at h
    rcases Option.map_eq_some'.mp h with ⟨t, ht, rfl⟩
    exact ⟨0, t, rfl, ht⟩
  · rw [if_neg hidr] at h
    cases prev with
    | none => simp at h
    | some pf =>
      rcases Option.map_eq_some'.mp h with ⟨t, ht, rfl⟩
      exact ⟨_, t, rfl, ht⟩

theorem fnsAux_adj :
    ∀ (l : List BasePic) (prev : Option (BasePic × Int)) (fns : List Int),
      frameNumSeqAux prev l = some fns →
      ∀ (i : Nat) (p q : BasePic) (fnp fnq : Int),
        l.get? i = some p → l.get? (i + 1) = some q →
        fns.get? i = some fnp → fns.get? (i + 1) = some fnq →
        fnq = frameNumNext q.ptype fnp p.is_reference := by
  intro l
  induction l with
  | nil => intro prev fns _ i p q fnp fnq hp; simp at hp
  | cons p0 ps ih =>
    intro prev fns h i p q fnp fnq hp hq hfp hfq
    rcases fnsAux_step h with ⟨f, rest, rfl, hrest⟩
    cases i with
    | zero =>
      have hp0 : p0 = p := by simpa using hp
      have hf0 : f = fnp := by simpa using hfp
      subst hp0; subst hf0
      rw [List.get?_cons_succ, List.get?_zero] at hq hfq
      have hhead := fnsAux_head hrest q hq
      rw [hfq] at hhead
      exact Option.some_inj.mp hhead
    | succ j =>
      rw [List.get?_cons_succ] at hp hq hfp hfq
      exact ih (some (p0, f)) rest hrest j p q fnp fnq hp hq hfp hfq

theorem fnsAux_idr :
    ∀ (l : List BasePic) (prev : Option (BasePic × Int)) (fns : List Int),
      frameNumSeqAux prev l = some fns →
      ∀ (i : Nat) (p : BasePic), l.get? i = some p → p.ptype = PicType.IDR →
        fns.get? i = some 0 := by
  intro l
  induction l with
  | nil => intro prev fns _ i p hp; simp at hp
  | cons p0 ps ih =>
    intro prev fns h i p hp hidr
    rcases fnsAux_step h with ⟨f, rest, rfl, hrest⟩
    cases i with
    | zero =>
      have hp0 : p0 = p := by simpa using hp
      subst hp0
      simp only [frameNumSeqAux] at h
      rw [if_pos hidr] at h
      rcases Option.map_eq_some'.mp h with ⟨t, _, heq⟩
      have hf : f = 0 := by
        have := congrArg List.head? heq
        simpa using this.symm
      simp [hf]
    | succ j =>
      rw [List.get?_cons_succ] at hp ⊢
      exact ih (some (p0, f)) rest hrest j p hp hidr

theorem fnsAux_nonneg :
    ∀ (l : List BasePic) (prev : Option (BasePic × Int)) (fns : List Int),
      (∀ pp fn, prev = some (pp, fn) → 0 ≤ fn) →
      frameNumSeqAux prev l = some fns →
      ∀ f ∈ fns, 0 ≤ f := by
  intro l
  induction l with
  | nil =>
    intro prev fns _ h f hf
    simp only [frameNumSeqAux] at h
    rcases Option.some_inj.mp h with rfl
    simp at hf
  | cons p0 ps ih =>
    intro prev fns hprev h f hf
    simp only [frameNumSeqAux] at h
    by_cases h0 : p0.ptype = PicType.IDR
    · rw [if_pos h0] at h
      rcases Option.map_eq_some'.mp h with ⟨t, ht, rfl⟩
      rcases List.mem_cons.mp hf with hf | hf
      · omega
      · exact ih _ t (by intro pp fn he; cases he; omega) ht f hf
    · rw [if_neg h0] at h
      cases prev with
      | none => simp at h
      | some pf =>
        rcases pf with ⟨pq, pfn⟩
        rcases Option.map_eq_some'.mp h with ⟨t, ht, rfl⟩
        have hpfn : 0 ≤ pfn := hprev pq pfn rfl
        have hnext : 0 ≤ pfn + (if pq.is_reference then 1 else 0) := by
          split_ifs <;> omega
        rcases List.mem_cons.mp hf with hf | hf
        · subst hf; exact hnext
        · exact ih _ t (by intro pp fn he; cases he; exact hnext) ht f hf

end VaapiEnc

namespace VaapiEnc

/-! ### Lemmas about reference-list-modification signaling -/

theorem listsDiffer_iff :
    ∀ xs ys : List RPic, listsDiffer xs ys = true ↔ xs ≠ ys.take xs.length
  | [], ys => by simp [listsDiffer]
  | x :: xs, [] => by simp [listsDiffer]
  | x :: xs, y :: ys => by
    simp only [listsDiffer, Bool.or_eq_true, decide_eq_true_eq, listsDiffer_iff xs ys]
    rw [List.length_cons, List.take_succ_cons]
    constructor
    · intro h he
      rcases List.cons_eq_cons.mp he with ⟨h1, h2⟩
      rcases h with h | h
      · exact h h1
      · exact h h2
    · intro h
      by_cases h1 : x = y
      · subst h1
        right
        intro h2
        exact h (congrArg (List.cons x) h2)
      · exact Or.inl h1

theorem rplmCmds_isSome :
    ∀ (refs : List RPic) (pred : Int),
      (∀ r ∈ refs, r.frame_num ≠ pred) →
      refs.Pairwise (fun a b => a.frame_num ≠ b.frame_num) →
      ∃ cs, rplmCmds pred refs = some cs
  | [], pred, _, _ => ⟨[⟨3, 0⟩], rfl⟩
  | r :: rest, pred, hne, hpw => by
    rcases List.pairwise_cons.mp hpw with ⟨hr, hrest⟩
    have h1 : r.frame_num ≠ pred := hne r (by simp)
    have h2 : ∀ s ∈ rest, s.frame_num ≠ r.frame_num :=
      fun s hs => (hr s hs).symm
    rcases rplmCmds_isSome rest r.frame_num h2 hrest with ⟨cs, hcs⟩
    by_cases hlt : r.frame_num < pred
    · exact ⟨_, by rw [rplmCmds, if_neg h1, if_pos hlt, hcs]; rfl⟩
    · exact ⟨_, by rw [rplmCmds, if_neg h1, if_neg hlt, hcs]; rfl⟩

theorem rplmTargets_roundtrip :
    ∀ (refs : List RPic) (pred : Int) (cs : List RplmEntry),
      rplmCmds pred refs = some cs →
      rplmTargets pred cs = refs.map (fun r => r.frame_num)
  | [], pred, cs, h => by
    rw [rplmCmds] at h
    rcases Option.some_inj.mp h with rfl
    simp [rplmTargets]
  | r :: rest, pred, cs, h => by
    rw [rplmCmds] at h
    by_cases h1 : r.frame_num = pred
    · rw [if_pos h1] at h; exact absurd h (by simp)
    · rw [if_neg h1] at h
      by_cases hlt : r.frame_num < pred
      · rw [if_pos hlt] at h
        rcases Option.map_eq_some'.mp h with ⟨cs2, hcs2, rfl⟩
        have harith : pred - (pred - r.frame_num - 1 + 1) = r.frame_num := by ring
        simp only [rplmTargets, List.map_cons]
        rw [if_neg (by decide), if_pos (by decide), harith,
          rplmTargets_roundtrip rest r.frame_num cs2 hcs2]
      · rw [if_neg hlt] at h
        rcases Option.map_eq_some'.mp h with ⟨cs2, hcs2, rfl⟩
        have harith : pred + (r.frame_num - pred - 1 + 1) = r.frame_num := by ring
        simp only [rplmTargets, List.map_cons]
        rw [if_neg (by decide), if_neg (by decide), harith,
          rplmTargets_roundtrip rest r.frame_num cs2 hcs2]

theorem pickByFrameNum_eq :
    ∀ (defl : List RPic) (r : RPic),
      defl.Pairwise (fun a b => a.frame_num ≠ b.frame_num) →
      r ∈ defl → pickByFrameNum defl r.frame_num = some r
  | [], r, _, hr => by simp at hr
  | d :: ds, r, hpw, hr => by
    rcases List.pairwise_cons.mp hpw with ⟨hd, hds⟩
    by_cases heq : d.frame_num = r.frame_num
    · have hdr : d = r := by
        rcases List.mem_cons.mp hr with hr | hr
        · exact hr.symm
        · exact absurd heq (hd r hr)
      subst hdr
      simp [pickByFrameNum, List.find?_cons_of_pos]
    · have hr2 : r ∈ ds := by
        rcases List.mem_cons.mp hr with hr | hr
        · exact absurd (by rw [hr]) heq
        · exact hr
      have := pickByFrameNum_eq ds r hds hr2
      simpa [pickByFrameNum, List.find?_cons_of_neg, heq] using this

/-! ### Lemmas about mmco emission -/

theorem mmcoOps_eq :
    ∀ (d : List RPic) (curFn : Int),
      (∀ old ∈ d, old.frame_num < curFn) →
      mmcoOps curFn d =
        some (d.map (fun old => ⟨1, curFn - old.frame_num - 1⟩))
  | [], _, _ => rfl
  | old :: rest, curFn, h => by
    rw [mmcoOps, if_pos (h old (by simp)),
      mmcoOps_eq rest curFn (fun o ho => h o (by simp [ho]))]
    rfl

theorem mmcoOps_none :
    ∀ (d : List RPic) (curFn : Int),
      (∃ old ∈ d, ¬ old.frame_num < curFn) →
      mmcoOps curFn d = none
  | [], _, h => by simp at h
  | old :: rest, curFn, h => by
    by_cases h1 : old.frame_num < curFn
    · rcases h with ⟨o, ho, hno⟩
      rcases List.mem_cons.mp ho with ho | ho
      · subst ho; exact absurd h1 hno
      · rw [mmcoOps, if_pos h1, mmcoOps_none rest curFn ⟨o, ho, hno⟩]
        rfl
    · rw [mmcoOps, if_neg h1]

/-! ### Lemmas about the H.265 reference picture set -/

theorem decodeS0_encodeS0 :
    ∀ (l : List (Int × Bool)) (prev : Int), decodeS0 prev (encodeS0 prev l) = l
  | [], _ => rfl
  | e :: rest, prev => by
    simp only [encodeS0, decodeS0]
    have h : prev - (prev - e.1 - 1) - 1 = e.1 := by ring
    rw [h, decodeS0_encodeS0 rest e.1]

theorem decodeS1_encodeS1 :
    ∀ (l : List (Int × Bool)) (prev : Int), decodeS1 prev (encodeS1 prev l) = l
  | [], _ => rfl
  | e :: rest, prev => by
    simp only [encodeS1, decodeS1]
    have h : prev + (e.1 - prev - 1) + 1 = e.1 := by ring
    rw [h, decodeS1_encodeS1 rest e.1]

theorem findPartition_spec {cur : Int} :
    ∀ (l : List (Int × Bool)) (i : Nat), findPartition cur l = some i →
      i ≤ l.length ∧ (∀ e ∈ l.take i, e.1 < cur) ∧
        (∀ e, (l.drop i).head? = some e → cur < e.1)
  | [], i, h => by
    rcases Option.some_inj.mp h with rfl
    refine ⟨by simp, by simp, by simp⟩
  | e :: rest, i, h => by
    rw [findPartition] at h
    by_cases h1 : e.1 = cur
    · rw [if_pos h1] at h; exact absurd h (by simp)
    · rw [if_neg h1] at h
      by_cases h2 : cur < e.1
      · rw [if_pos h2] at h
        rcases Option.some_inj.mp h with rfl
        refine ⟨by simp, by simp, ?_⟩
        intro f hf
        rcases Option.some_inj.mp hf.symm with rfl
        simpa using h2
      · rw [if_neg h2] at h
        rcases Option.map_eq_some'.mp h with ⟨j, hj, rfl⟩
        rcases findPartition_spec rest j hj with ⟨hle, htake, hdrop⟩
        refine ⟨by simpa using hle, ?_, ?_⟩
        · intro f hf
          rw [List.take_succ_cons] at hf
          rcases List.mem_cons.mp hf with hf | hf
          · subst hf; omega
          · exact htake f hf
        · intro f hf
          rw [List.drop_succ_cons] at hf
          exact hdrop f hf

theorem all_gt_of_sorted_head {cur : Int} {l : List (Int × Bool)}
    (hp : l.Pairwise (fun a b => a.1 < b.1))
    (hh : ∀ e, l.head? = some e → cur < e.1) :
    ∀ e ∈ l, cur < e.1 := by
  cases l with
  | nil => simp
  | cons h0 t =>
    intro e he
    have hc := hh h0 rfl
    rcases List.mem_cons.mp he with he | he
    · subst he; exact hc
    · rcases List.pairwise_cons.mp hp with ⟨hrel, _⟩
      exact lt_trans hc (hrel e he)

theorem rpsSort_char {pool l : List (Int × Bool)}
    (h : rpsSort pool = some l) :
    l.Pairwise (fun a b => a.1 < b.1) ∧ List.Perm l pool := by
  simp only [rpsSort, Option.map_eq_some'] at h
  rcases h with ⟨res, hres, rfl⟩
  have hspec := insLoop_spec (List.Pairwise.nil)
    (by intro y hy; simp at hy)
    (pairwise_of_all (fun a b hb => stopRps_tot a b hb) pool)
    stopRps_trans hres
  rcases hspec with ⟨hpair, hperm⟩
  constructor
  · have : res.reverse.Pairwise (fun a b => stopRps a b = true) := by
      rw [List.pairwise_reverse]
      exact hpair
    exact this.imp (by intro a b hab; simpa [stopRps, decide_eq_true_eq] using hab)
  · exact (res.reverse_perm).trans (by simpa using hperm)

end VaapiEnc

namespace VaapiEnc

/-! ### Claim theorems -/

/-- C1: along every picture sequence accepted by the H.264 variant, the
derived frame_num is 0 exactly at the IDR reset, every non-IDR picture's
frame_num equals the previous picture's frame_num plus the previous
picture's reference flag, and the masked on-wire slice-header value obeys
the same recurrence taken mod 2 ^ (4 + log2_max_frame_num_minus4); all
stored counters are nonnegative, so the C bitmask agrees with the modulus. -/
theorem C1_frame_num_recurrence (l : List BasePic) (fns : List Int) (k : Nat)
    (h : frameNumSeq l = some fns) :
    (∀ i p, l.get? i = some p → p.ptype = PicType.IDR → fns.get? i = some 0) ∧
    (∀ i p q fnp fnq,
      l.get? i = some p → l.get? (i + 1) = some q → q.ptype ≠ PicType.IDR →
      fns.get? i = some fnp → fns.get? (i + 1) = some fnq →
      fnq = fnp + (if p.is_reference then 1 else 0) ∧
      shFrameNum fnq k =
        (shFrameNum fnp k + (if p.is_reference then 1 else 0)) % 2 ^ (4 + k)) ∧
    (∀ f ∈ fns, 0 ≤ f) := by
  refine ⟨?_, ?_, ?_⟩
  · intro i p hp hidr
    exact fnsAux_idr l none fns h i p hp hidr
  · intro i p q fnp fnq hp hq hnidr hfp hfq
    have hrec := fnsAux_adj l none fns h i p q fnp fnq hp hq hfp hfq
    rw [frameNumNext, if_neg hnidr] at hrec
    refine ⟨hrec, ?_⟩
    subst hrec
    unfold shFrameNum
    exact (Int.emod_add_emod fnp (2 ^ (4 + k)) (if p.is_reference then 1 else 0)).symm
  · exact fnsAux_nonneg l none fns (by intro pp fn h2; cases h2) h

theorem C1_witness :
    frameNumSeq [⟨PicType.IDR, true⟩, ⟨PicType.P, true⟩, ⟨PicType.B, false⟩]
        = some [0, 1, 2] ∧
    ([0, 1, 2] : List Int).get? 0 = some 0 := by
  refine ⟨by decide, ?_⟩
  exact (C1_frame_num_recurrence
    [⟨PicType.IDR, true⟩, ⟨PicType.P, true⟩, ⟨PicType.B, false⟩] [0, 1, 2] 0
    (by decide)).1 0 ⟨PicType.IDR, true⟩ (by decide) (by decide)

/-- C2: for a B picture whose previous picture carries a non-empty DPB with
pairwise distinct POCs, all distinct from the current POC (the assertion the
code checks while scanning) and with frame_num below the current picture's,
default list 0 equals: candidates with POC below the current POC by
decreasing POC, then the remaining candidates by increasing POC; and default
list 1 (before the degenerate-list correction) is the mirror ordering. -/
theorem C2_default_b_lists (cur : RPic) (dpb : List RPic)
    (_hne : dpb ≠ [])
    (hdist : dpb.Pairwise (fun a b => a.poc ≠ b.poc))
    (hp : ∀ x ∈ dpb, x.poc ≠ cur.poc)
    (hfn : ∀ x ∈ dpb, x.frame_num < cur.frame_num) :
    defaultListB0 cur dpb = some (specListB0 cur.poc dpb) ∧
    defaultListB1pre cur dpb = some (specListB1 cur.poc dpb) :=
  ⟨defaultListB0_eq_spec hdist hp hfn, defaultListB1pre_eq_spec hdist hp hfn⟩

theorem C2_witness :
    ([⟨1, 1, 2⟩, ⟨2, 2, 14⟩, ⟨3, 3, 6⟩, ⟨4, 4, 12⟩] : List RPic) ≠ [] ∧
    defaultListB0 ⟨0, 5, 10⟩ [⟨1, 1, 2⟩, ⟨2, 2, 14⟩, ⟨3, 3, 6⟩, ⟨4, 4, 12⟩]
      = some (specListB0 10 [⟨1, 1, 2⟩, ⟨2, 2, 14⟩, ⟨3, 3, 6⟩, ⟨4, 4, 12⟩]) := by
  refine ⟨by decide, ?_⟩
  exact (C2_default_b_lists ⟨0, 5, 10⟩ [⟨1, 1, 2⟩, ⟨2, 2, 14⟩, ⟨3, 3, 6⟩, ⟨4, 4, 12⟩]
    (by decide) (by decide) (by decide) (by decide)).1

/-- C3: for a B picture, the degenerate-list correction swaps the first two
entries of list 1 exactly when the two default lists agree element for
element and leaves list 1 untouched otherwise, and after the correction the
two lists differ whenever at least two candidates exist. -/
theorem C3_degenerate_list_fix (cur : RPic) (dpb : List RPic) (l0 l1 : List RPic)
    (hdist : dpb.Pairwise (fun a b => a.poc ≠ b.poc))
    (hp : ∀ x ∈ dpb, x.poc ≠ cur.poc)
    (h0 : defaultListB0 cur dpb = some l0)
    (h1 : defaultListB1pre cur dpb = some l1) :
    defaultRefPicListsB cur dpb = some (l0, fixListB1 l0 l1) ∧
    (l0 = l1 → fixListB1 l0 l1 = swapFirstTwo l1) ∧
    (l0 ≠ l1 → fixListB1 l0 l1 = l1) ∧
    (2 ≤ l1.length → fixListB1 l0 l1 ≠ l0) := by
  rcases defaultListB1pre_char hdist hp h1 with ⟨hpair, _⟩
  refine ⟨by simp [defaultRefPicListsB, h0, h1], ?_, ?_, ?_⟩
  · intro he; simp [fixListB1, he]
  · intro he; simp [fixListB1, he]
  · intro hlen
    by_cases he : l0 = l1
    · rw [fixListB1, if_pos he, he]
      cases l1 with
      | nil => simp at hlen
      | cons a t =>
        cases t with
        | nil => simp at hlen
        | cons b t2 =>
          have hab : stopB1 cur.poc a b = true := by
            rcases List.pairwise_cons.mp hpair with ⟨ha, _⟩
            exact ha b (by simp)
          have hne : a ≠ b := by
            intro hcontra
            subst hcontra
            rw [stopB1_iff] at hab
            omega
          simp only [swapFirstTwo]
          intro hcontra
          rcases List.cons_eq_cons.mp hcontra with ⟨hba, _⟩
          exact hne hba.symm
    · rw [fixListB1, if_neg he]
      exact fun hcontra => he hcontra.symm

theorem C3_witness :
    defaultListB0 ⟨0, 5, 10⟩ [⟨1, 1, 2⟩, ⟨2, 2, 6⟩] = some [⟨2, 2, 6⟩, ⟨1, 1, 2⟩] ∧
    defaultRefPicListsB ⟨0, 5, 10⟩ [⟨1, 1, 2⟩, ⟨2, 2, 6⟩] =
      some ([⟨2, 2, 6⟩, ⟨1, 1, 2⟩],
        fixListB1 [⟨2, 2, 6⟩, ⟨1, 1, 2⟩] [⟨2, 2, 6⟩, ⟨1, 1, 2⟩]) := by
  refine ⟨by decide, ?_⟩
  exact (C3_degenerate_list_fix ⟨0, 5, 10⟩ [⟨1, 1, 2⟩, ⟨2, 2, 6⟩]
    [⟨2, 2, 6⟩, ⟨1, 1, 2⟩] [⟨2, 2, 6⟩, ⟨1, 1, 2⟩]
    (by decide) (by decide) (by decide) (by decide)).1

/-- C4: for a P or B picture, modification signaling for a list is emitted
exactly when the scheduler-chosen references differ from the computed
default list at some index below the reference count, no commands are
emitted otherwise, and applying the emitted difference-of-pic-num chain
(each delta against the previous entry's frame_num, starting from the
current picture's frame_num, terminated by idc 3) to the default list's
candidates resolves exactly the scheduler-chosen references in order.  The
emission logic is shared verbatim by list 0 of P pictures and lists 0 and 1
of B pictures. -/
theorem C4_rplm_iff_and_roundtrip (cur : RPic) (refs defl : List RPic)
    (hsub : ∀ r ∈ refs, r ∈ defl)
    (hdfl : defl.Pairwise (fun a b => a.frame_num ≠ b.frame_num))
    (hcur : ∀ r ∈ refs, r.frame_num ≠ cur.frame_num)
    (hrefs : refs.Pairwise (fun a b => a.frame_num ≠ b.frame_num)) :
    ∃ flag cmds, sliceRplm cur refs defl = some (flag, cmds) ∧
      (flag = true ↔ refs ≠ defl.take refs.length) ∧
      (flag = false → cmds = []) ∧
      (flag = true →
        (rplmTargets cur.frame_num cmds).map (pickByFrameNum defl) = refs.map some) := by
  by_cases hd : listsDiffer refs defl = true
  · rcases rplmCmds_isSome refs cur.frame_num hcur hrefs with ⟨cs, hcs⟩
    refine ⟨true, cs, by simp [sliceRplm, hd, hcs], ?_, by simp, ?_⟩
    · exact ⟨fun _ => (listsDiffer_iff refs defl).mp hd, fun _ => rfl⟩
    · intro _
      rw [rplmTargets_roundtrip refs cur.frame_num cs hcs, List.map_map]
      refine List.map_congr_left ?_
      intro r hr
      exact pickByFrameNum_eq defl r hdfl (hsub r hr)
  · have hfalse : listsDiffer refs defl = false := by simpa using hd
    refine ⟨false, [], by simp [sliceRplm, hfalse], ?_, fun _ => rfl, by simp⟩
    have hiff := listsDiffer_iff refs defl
    rw [hfalse] at hiff
    constructor
    · intro hcontra; exact absurd hcontra (by simp)
    · intro hneq
      exact absurd hneq (by simpa using hiff)

theorem C4_witness :
    (∀ r ∈ ([⟨1, 3, 2⟩, ⟨2, 4, 4⟩] : List RPic), r ∈ ([⟨2, 4, 4⟩, ⟨1, 3, 2⟩] : List RPic)) ∧
    ∃ flag cmds,
      sliceRplm ⟨0, 5, 10⟩ [⟨1, 3, 2⟩, ⟨2, 4, 4⟩] [⟨2, 4, 4⟩, ⟨1, 3, 2⟩] = some (flag, cmds) ∧
      (flag = true ↔
        ([⟨1, 3, 2⟩, ⟨2, 4, 4⟩] : List RPic) ≠
          ([⟨2, 4, 4⟩, ⟨1, 3, 2⟩] : List RPic).take 2) ∧
      (flag = false → cmds = []) ∧
      (flag = true →
        (rplmTargets 5 cmds).map (pickByFrameNum [⟨2, 4, 4⟩, ⟨1, 3, 2⟩]) =
          ([⟨1, 3, 2⟩, ⟨2, 4, 4⟩] : List RPic).map some) := by
  refine ⟨by decide, ?_⟩
  exact C4_rplm_iff_and_roundtrip ⟨0, 5, 10⟩ [⟨1, 3, 2⟩, ⟨2, 4, 4⟩] [⟨2, 4, 4⟩, ⟨1, 3, 2⟩]
    (by decide) (by decide) (by decide) (by decide)

end VaapiEnc

namespace VaapiEnc

theorem encodeS0_length : ∀ (l : List (Int × Bool)) (prev : Int),
    (encodeS0 prev l).length = l.length
  | [], _ => rfl
  | e :: rest, prev => by
    simp only [encodeS0, List.length_cons, encodeS0_length rest e.1]

theorem encodeS1_length : ∀ (l : List (Int × Bool)) (prev : Int),
    (encodeS1 prev l).length = l.length
  | [], _ => rfl
  | e :: rest, prev => by
    simp only [encodeS1, List.length_cons, encodeS1_length rest e.1]

/-- C5 counterexample: with current POC 4 and used references at POC 0 and 2,
the code emits delta_poc_s0_minus1 = [1, 1] (each delta against the previous
entry's POC), while the claim's encoding against the current picture's POC
throughout would give [1, 3]. -/
theorem C5_counterexample :
    buildRps ⟨0, 0, 4⟩ [⟨1, 0, 0⟩, ⟨2, 0, 2⟩] [] [] =
      some ⟨2, 0, [(1, true), (1, true)], []⟩ ∧
    specEncodeS0 4 [(2, true), (0, true)] = [(1, true), (3, true)] ∧
    ([(1, true), (1, true)] : List (Int × Bool)) ≠ [(1, true), (3, true)] := by
  refine ⟨by decide, by decide, by decide⟩

/-- C5 (amended): for every non-IDR picture of the H.265 variant on which the
construction succeeds, the short-term reference picture set is the candidate
pool (used references then DPB-resident-but-unused pictures) sorted by POC
ascending with distinct POCs, partitioned at the first entry whose POC
exceeds the current POC; the negative partition is encoded nearest-first and
the positive partition in ascending order, each entry's delta taken against
the previous entry's POC starting from the current picture's POC
(consecutive differences minus one), carrying its used flag; decoding the two
delta chains reproduces exactly the POC set of the pool, each exactly once. -/
theorem C5_rps_construction (cur : RPic) (refs0 refs1 dpb : List RPic)
    (r : StRefPicSet) (h : buildRps cur refs0 refs1 dpb = some r) :
    List.Perm ((decodeS0 cur.poc r.s0).reverse ++ decodeS1 cur.poc r.s1)
      (rpsPool cur refs0 refs1 dpb) ∧
    ((decodeS0 cur.poc r.s0).reverse ++ decodeS1 cur.poc r.s1).Pairwise
      (fun a b => a.1 < b.1) ∧
    (∀ e ∈ decodeS0 cur.poc r.s0, e.1 < cur.poc) ∧
    (∀ e ∈ decodeS1 cur.poc r.s1, cur.poc < e.1) ∧
    r.num_negative_pics = r.s0.length ∧
    r.num_positive_pics = r.s1.length := by
  rw [buildRps] at h
  split at h
  next => exact absurd h (by simp)
  next sorted hs =>
    split at h
    next => exact absurd h (by simp)
    next i hi =>
      rcases Option.some_inj.mp h with rfl
      rcases rpsSort_char hs with ⟨hsorted, hperm⟩
      rcases findPartition_spec sorted i hi with ⟨hle, htake, hdrop⟩
      have hd0 : decodeS0 cur.poc (encodeS0 cur.poc (sorted.take i).reverse) =
          (sorted.take i).reverse := decodeS0_encodeS0 _ _
      have hd1 : decodeS1 cur.poc (encodeS1 cur.poc (sorted.drop i)) =
          sorted.drop i := decodeS1_encodeS1 _ _
      simp only [hd0, hd1, List.reverse_reverse]
      refine ⟨?_, ?_, ?_, ?_, ?_, ?_⟩
      · rw [List.take_append_drop]
        exact hperm
      · rw [List.take_append_drop]
        exact hsorted
      · intro e he
        exact htake e (List.mem_reverse.mp he)
      · refine all_gt_of_sorted_head (hsorted.sublist (List.drop_sublist i sorted)) hdrop
      · simp [encodeS0_length, List.length_take]
        omega
      · simp [encodeS1_length, List.length_drop]

theorem C5_witness :
    buildRps ⟨0, 0, 4⟩ [⟨1, 0, 2⟩] [⟨2, 0, 6⟩] [⟨3, 0, 0⟩, ⟨0, 0, 4⟩, ⟨1, 0, 2⟩] =
      some ⟨2, 1, [(1, true), (1, false)], [(1, true)]⟩ ∧
    (∀ e ∈ decodeS0 4 [((1 : Int), true), ((1 : Int), false)], e.1 < 4) := by
  refine ⟨by decide, ?_⟩
  exact (C5_rps_construction ⟨0, 0, 4⟩ [⟨1, 0, 2⟩] [⟨2, 0, 6⟩]
    [⟨3, 0, 0⟩, ⟨0, 0, 4⟩, ⟨1, 0, 2⟩] ⟨2, 1, [(1, true), (1, false)], [(1, true)]⟩
    (by decide)).2.2.1

/-- C6: for a reference non-IDR picture, each picture in the previous DPB but
absent from the current DPB is emitted as mmco operation 1 carrying the
current frame_num minus the discarded frame_num minus one, terminated by an
operation-0 end marker; when nothing is discarded the adaptive marking flag
is 0 with no operations; a discarded frame_num not below the current one is
a fatal assertion. -/
theorem C6_mmco (cur : RPic) (prevDpb curDpb : List RPic) :
    (discardList prevDpb curDpb = [] →
      sliceMmco cur prevDpb curDpb = some (false, [])) ∧
    (discardList prevDpb curDpb ≠ [] →
      (∀ old ∈ discardList prevDpb curDpb, old.frame_num < cur.frame_num) →
      sliceMmco cur prevDpb curDpb =
        some (true,
          (discardList prevDpb curDpb).map
            (fun old => ⟨1, cur.frame_num - old.frame_num - 1⟩) ++ [⟨0, 0⟩])) ∧
    ((∃ old ∈ discardList prevDpb curDpb, ¬ old.frame_num < cur.frame_num) →
      sliceMmco cur prevDpb curDpb = none) ∧
    (∀ old ∈ discardList prevDpb curDpb, old ∈ prevDpb ∧ old ∉ curDpb) := by
  refine ⟨?_, ?_, ?_, ?_⟩
  · intro he
    rw [sliceMmco, if_pos he]
  · intro hne hlt
    rw [sliceMmco, if_neg hne, mmcoOps_eq _ _ hlt]
    rfl
  · intro hex
    have hne : discardList prevDpb curDpb ≠ [] := by
      rcases hex with ⟨o, ho, _⟩
      intro hcontra
      rw [hcontra] at ho
      simp at ho
    rw [sliceMmco, if_neg hne, mmcoOps_none _ _ hex]
    rfl
  · intro old ho
    rcases List.mem_filter.mp ho with ⟨h1, h2⟩
    exact ⟨h1, of_decide_eq_true h2⟩

theorem C6_witness :
    discardList [⟨1, 1, 2⟩, ⟨2, 2, 4⟩, ⟨3, 3, 6⟩] [⟨2, 2, 4⟩] ≠ [] ∧
    sliceMmco ⟨0, 5, 10⟩ [⟨1, 1, 2⟩, ⟨2, 2, 4⟩, ⟨3, 3, 6⟩] [⟨2, 2, 4⟩] =
      some (true,
        (discardList [⟨1, 1, 2⟩, ⟨2, 2, 4⟩, ⟨3, 3, 6⟩] [⟨2, 2, 4⟩]).map
          (fun old => ⟨1, (5 : Int) - old.frame_num - 1⟩) ++ [⟨0, 0⟩]) := by
  refine ⟨by decide, ?_⟩
  exact (C6_mmco ⟨0, 5, 10⟩ [⟨1, 1, 2⟩, ⟨2, 2, 4⟩, ⟨3, 3, 6⟩] [⟨2, 2, 4⟩]).2.1
    (by decide) (by decide)

end VaapiEnc

namespace VaapiEnc

/-- C7: each access-unit serialization call resets the pending unit list to
empty on every exit path; when the caller's bit capacity is below the
required bit length the call fails with ENOSPC and writes no bytes; a
serializer failure is propagated with no bytes written and the pending list
still reset. -/
theorem C7_write_transactional (audNeeded cbr : Bool) (au seiUnits : List NalKind)
    (dataLen : Nat) (buf : List Nat) (ser : List NalKind → Except CErr CbsOut) :
    ((writeSequenceHeader audNeeded au dataLen buf ser).2.2 = []) ∧
    ((writeSliceHeader audNeeded au dataLen buf ser).2.2 = []) ∧
    ((writeExtraHeader true cbr audNeeded au seiUnits dataLen buf ser).2.2 = []) ∧
    (∀ o, ser ((if audNeeded then au ++ [NalKind.aud] else au) ++ [NalKind.sps, NalKind.pps]) =
        Except.ok o → dataLen < bitLen o →
      writeSequenceHeader audNeeded au dataLen buf ser =
        (Except.error CErr.enospc, buf, [])) ∧
    (∀ o, ser ((if audNeeded then au ++ [NalKind.aud] else au) ++ [NalKind.sliceHdr]) =
        Except.ok o → dataLen < bitLen o →
      writeSliceHeader audNeeded au dataLen buf ser =
        (Except.error CErr.enospc, buf, [])) ∧
    (∀ o, ser ((if audNeeded then au ++ [NalKind.aud] else au) ++ seiUnits) =
        Except.ok o → dataLen < bitLen o →
      writeExtraHeader true cbr audNeeded au seiUnits dataLen buf ser =
        (Except.error CErr.enospc, buf, [])) ∧
    (∀ e, ser ((if audNeeded then au ++ [NalKind.aud] else au) ++ [NalKind.sps, NalKind.pps]) =
        Except.error e →
      writeSequenceHeader audNeeded au dataLen buf ser = (Except.error e, buf, [])) := by
  refine ⟨rfl, rfl, rfl, ?_, ?_, ?_, ?_⟩
  · intro o hser hlt
    simp [writeSequenceHeader, writeAccessUnit, hser, hlt]
  · intro o hser hlt
    simp [writeSliceHeader, writeAccessUnit, hser, hlt]
  · intro o hser hlt
    simp [writeExtraHeader, writeAccessUnit, hser, hlt]
  · intro e hser
    simp [writeSequenceHeader, writeAccessUnit, hser]

theorem C7_witness :
    7 < bitLen ⟨[0], 0⟩ ∧
    writeSequenceHeader false [] 7 [9]
        (fun _ => (Except.ok ⟨[0], 0⟩ : Except CErr CbsOut)) =
      (Except.error CErr.enospc, [9], []) := by
  refine ⟨by decide, ?_⟩
  exact (C7_write_transactional false false [] [] 7 [9]
    (fun _ => (Except.ok ⟨[0], 0⟩ : Except CErr CbsOut))).2.2.2.1 ⟨[0], 0⟩ rfl (by decide)

/-- C8: the identifier SEI is scheduled exactly on the first picture in
encode order, a scheduled timing SEI yields a picture-timing message on
every picture with a buffering-period message exactly on IDR pictures, the
recovery-point SEI is scheduled exactly on non-IDR intra pictures, and
configuration clears the timing SEI when the rate-control mode does not
respect HRD parameters. -/
theorem C8_sei_schedule (sei0 : SeiOpts) (hrd : Bool) (eo : Nat) (t : PicType)
    (a53p : Bool) :
    ((scheduleSei (configureSei hrd sei0) eo t a53p).identifier = true ↔
      ((configureSei hrd sei0).identifier = true ∧ eo = 0)) ∧
    ((scheduleSei (configureSei hrd sei0) eo t a53p).timing =
      (configureSei hrd sei0).timing) ∧
    ((configureSei hrd sei0).timing = true →
      SeiMsg.picTiming ∈
        extraHeaderMsgs (scheduleSei (configureSei hrd sei0) eo t a53p) t ∧
      (SeiMsg.bufferingPeriod ∈
          extraHeaderMsgs (scheduleSei (configureSei hrd sei0) eo t a53p) t ↔
        t = PicType.IDR)) ∧
    ((scheduleSei (configureSei hrd sei0) eo t a53p).recovery_point = true ↔
      ((configureSei hrd sei0).recovery_point = true ∧ t = PicType.I)) ∧
    (hrd = false → (configureSei hrd sei0).timing = false) := by
  refine ⟨?_, rfl, ?_, ?_, ?_⟩
  · simp [scheduleSei, Bool.and_eq_true, decide_eq_true_eq]
  · intro ht
    have htm : (scheduleSei (configureSei hrd sei0) eo t a53p).timing = true := ht
    by_cases hidr : t = PicType.IDR
    · subst hidr
      cases hid : (scheduleSei (configureSei hrd sei0) eo PicType.IDR a53p).identifier <;>
        cases hrp : (scheduleSei (configureSei hrd sei0) eo PicType.IDR a53p).recovery_point <;>
        cases ha : (scheduleSei (configureSei hrd sei0) eo PicType.IDR a53p).a53_cc <;>
        simp [extraHeaderMsgs, hid, hrp, ha, htm]
    · cases hid : (scheduleSei (configureSei hrd sei0) eo t a53p).identifier <;>
        cases hrp : (scheduleSei (configureSei hrd sei0) eo t a53p).recovery_point <;>
        cases ha : (scheduleSei (configureSei hrd sei0) eo t a53p).a53_cc <;>
        simp [extraHeaderMsgs, hid, hrp, ha, htm, hidr]
  · simp [scheduleSei, Bool.and_eq_true, decide_eq_true_eq]
  · intro h
    simp [configureSei, h]

theorem C8_witness :
    (configureSei true ⟨true, true, true, false⟩).timing = true ∧
    (SeiMsg.bufferingPeriod ∈
        extraHeaderMsgs
          (scheduleSei (configureSei true ⟨true, true, true, false⟩) 0 PicType.IDR false)
          PicType.IDR ↔
      PicType.IDR = PicType.IDR) := by
  refine ⟨rfl, ?_⟩
  exact ((C8_sei_schedule ⟨true, true, true, false⟩ true 0 PicType.IDR false).2.2.1
    rfl).2

/-- C9: the default list 0 of a P picture sorts the DPB candidates by
strictly descending frame_num via the insertion pass and is a permutation of
the DPB; success forces pairwise distinct frame_num values, and a DPB with a
duplicated frame_num makes the insertion pass hit its assertion (no list is
produced). -/
theorem C9_p_list_descending (cur : RPic) (dpb : List RPic) :
    (∀ l, defaultListP cur dpb = some l →
      l.Pairwise (fun a b => b.frame_num < a.frame_num) ∧ List.Perm l dpb ∧
      dpb.Pairwise (fun a b => a.frame_num ≠ b.frame_num)) ∧
    (¬ dpb.Pairwise (fun a b => a.frame_num ≠ b.frame_num) →
      defaultListP cur dpb = none) := by
  have hmain : ∀ l, defaultListP cur dpb = some l →
      l.Pairwise (fun a b => b.frame_num < a.frame_num) ∧ List.Perm l dpb ∧
      dpb.Pairwise (fun a b => a.frame_num ≠ b.frame_num) := by
    intro l h
    rcases defaultListP_char h with ⟨hpair, hperm⟩
    have hdist : l.Pairwise (fun a b => a.frame_num ≠ b.frame_num) :=
      hpair.imp (fun {a b} hab => by omega)
    exact ⟨hpair, hperm,
      (List.Perm.pairwise_iff (fun {a b} hab => hab.symm) hperm).mp hdist⟩
  refine ⟨hmain, ?_⟩
  intro hnd
  rcases hcase : defaultListP cur dpb with _ | l
  · rfl
  · exact absurd (hmain l hcase).2.2 hnd

theorem C9_witness :
    defaultListP ⟨0, 5, 10⟩ [⟨1, 1, 2⟩, ⟨2, 3, 6⟩, ⟨3, 2, 4⟩] =
      some [⟨2, 3, 6⟩, ⟨3, 2, 4⟩, ⟨1, 1, 2⟩] ∧
    defaultListP ⟨0, 5, 10⟩ [⟨1, 1, 2⟩, ⟨2, 1, 6⟩] = none := by
  refine ⟨by decide, ?_⟩
  exact (C9_p_list_descending ⟨0, 5, 10⟩ [⟨1, 1, 2⟩, ⟨2, 1, 6⟩]).2 (by decide)

/-- C10: the H.265 short-term RPS candidate pool never contains the current
picture: an entry of the current picture's DPB equal to the picture itself
is skipped, so the pool equals the pool over the DPB with the current
picture removed, its contents are exactly the used references plus the
remaining DPB members, and (given distinct POCs across pictures) every
pooled POC differs from the current picture's POC. -/
theorem C10_rps_excludes_current (cur : RPic) (refs0 refs1 dpb : List RPic)
    (h0 : cur ∉ refs0) (h1 : cur ∉ refs1)
    (hpoc : ∀ x, x ∈ refs0 ++ refs1 ++ dpb → x ≠ cur → x.poc ≠ cur.poc) :
    (rpsPool cur refs0 refs1 dpb =
      rpsPool cur refs0 refs1 (dpb.filter (fun d => decide (d ≠ cur)))) ∧
    (∀ e ∈ rpsPool cur refs0 refs1 dpb, e.1 ≠ cur.poc) ∧
    (∀ pb : Int × Bool, pb ∈ rpsPool cur refs0 refs1 dpb ↔
      ((pb.2 = true ∧ ∃ x ∈ refs0 ++ refs1, x.poc = pb.1) ∨
       (pb.2 = false ∧
         ∃ d ∈ dpb, d ≠ cur ∧ d ∉ refs0 ∧ d ∉ refs1 ∧ d.poc = pb.1))) := by
  refine ⟨?_, ?_, ?_⟩
  · simp only [rpsPool]
    congr 1
    congr 1
    rw [List.filter_filter]
    refine (List.filter_congr ?_).symm
    intro a _
    by_cases hc : a = cur <;> simp [hc]
  · intro e he
    simp only [rpsPool, List.mem_append, List.mem_map] at he
    rcases he with ⟨x, hx, rfl⟩ | ⟨d, hd, rfl⟩
    · have hxc : x ≠ cur := by
        intro hcontra
        subst hcontra
        rcases hx with hx2 | hx2
        · exact h0 hx2
        · exact h1 hx2
      exact hpoc x (List.mem_append.mpr (Or.inl (List.mem_append.mpr hx))) hxc
    · rcases List.mem_filter.mp hd with ⟨hdm, hcond⟩
      have hdc : d ≠ cur := by
        simp only [Bool.and_eq_true, decide_eq_true_eq] at hcond
        exact hcond.1.1
      exact hpoc d (List.mem_append.mpr (Or.inr hdm)) hdc
  · intro pb
    rcases pb with ⟨p, u⟩
    simp only [rpsPool, List.mem_append, List.mem_map, List.mem_filter,
      Prod.mk.injEq, Bool.and_eq_true, decide_eq_true_eq]
    constructor
    · rintro (⟨x, hx, hp, hu⟩ | ⟨d, ⟨hdm, ⟨hd1, hd2⟩, hd3⟩, hp, hu⟩)
      · exact Or.inl ⟨hu.symm, x, hx, hp⟩
      · exact Or.inr ⟨hu.symm, d, hdm, hd1, hd2, hd3, hp⟩
    · rintro (⟨hu, x, hx, hp⟩ | ⟨hu, d, hdm, hd1, hd2, hd3, hp⟩)
      · exact Or.inl ⟨x, hx, hp, hu.symm⟩
      · exact Or.inr ⟨d, ⟨hdm, ⟨hd1, hd2⟩, hd3⟩, hp, hu.symm⟩

theorem C10_witness :
    ((⟨0, 0, 4⟩ : RPic) ∉ ([⟨1, 0, 2⟩] : List RPic)) ∧
    (∀ e ∈ rpsPool ⟨0, 0, 4⟩ [⟨1, 0, 2⟩] [⟨2, 0, 6⟩] [⟨3, 0, 0⟩, ⟨0, 0, 4⟩, ⟨1, 0, 2⟩],
      e.1 ≠ 4) := by
  refine ⟨by decide, ?_⟩
  exact (C10_rps_excludes_current ⟨0, 0, 4⟩ [⟨1, 0, 2⟩] [⟨2, 0, 6⟩]
    [⟨3, 0, 0⟩, ⟨0, 0, 4⟩, ⟨1, 0, 2⟩] (by decide) (by decide) (by decide)).2.1

end VaapiEnc
